import Mathlib

/-!
CLinuxUtils: the two accessors over a raw inotify record.

A shallow embedding of `Sources/CLinuxUtils/CLinuxUtils.c`:

    char* getEventName(void* event)      { return ((struct inotify_event*) event)->name; }
    uint32_t getEventStride(void* event) { struct inotify_event* e = ...;
                                           return sizeof(struct inotify_event) + e->len; }

Memory is a finite list of bytes; a pointer is an offset into it.  A load that
touches an offset outside the list has no defined result in C and is `none`
here.  `struct inotify_event` comes from `<sys/inotify.h>`:

    struct inotify_event { int wd; uint32_t mask; uint32_t cookie; uint32_t len; char name[]; };
-/

namespace Witness

/-- One byte of memory. -/
abbrev Byte := Fin 256

/-- Byte order of the platform: the `len` field is loaded in native order. -/
inductive ByteOrder where
  | little
  | big
  deriving DecidableEq, Repr

/-- Modelled from the spec: size of `struct inotify_event` (the fixed header,
"header size 16"); the declaration is in `<sys/inotify.h>`, outside the
sources. -/
def sizeofInotifyEvent : Nat := 16

/-- Modelled from the spec: offset of the field `len` in `struct inotify_event`
(after `wd`, `mask` and `cookie`, four bytes each). -/
def offsetofLen : Nat := 12

/-- Modelled from the spec: offset of the flexible array member `name`, which
starts right after the fixed header. -/
def offsetofName : Nat := 16

/-- Number of values of a `uint32_t`. -/
def UINT32_MOD : Nat := 4294967296

/-- Value of a 32-bit word made of four consecutive bytes `b0 b1 b2 b3`
(in increasing address order). -/
def combineU32 : ByteOrder → Byte → Byte → Byte → Byte → Nat
  | .little, b0, b1, b2, b3 => b0.val + 256 * b1.val + 65536 * b2.val + 16777216 * b3.val
  | .big, b0, b1, b2, b3 => b3.val + 256 * b2.val + 65536 * b1.val + 16777216 * b0.val

/-- Load of a `uint32_t` at offset `a`: all four bytes must lie in memory. -/
def loadU32 (bo : ByteOrder) (mem : List Byte) (a : Nat) : Option Nat :=
  match mem[a]?, mem[a + 1]?, mem[a + 2]?, mem[a + 3]? with
  | some b0, some b1, some b2, some b3 => some (combineU32 bo b0 b1 b2 b3)
  | _, _, _, _ => none

/-- The accessor `getEventName`: the address of the member `name` of the record
at `event`.  It is pointer arithmetic only, no byte is loaded. -/
def getEventName (event : Nat) : Nat :=
  event + offsetofName

/-- The accessor `getEventStride`: `sizeof(struct inotify_event) + e->len`,
converted to the `uint32_t` return type. -/
def getEventStride (bo : ByteOrder) (mem : List Byte) (event : Nat) : Option Nat :=
  match loadU32 bo mem (event + offsetofLen) with
  | some len => some ((sizeofInotifyEvent + len) % UINT32_MOD)
  | none => none

/-- The C string held by a list of bytes: the bytes before the first null.
`none` when the list ends before a null is met (the scan leaves memory). -/
def cStringOf : List Byte → Option (List Byte)
  | [] => none
  | b :: rest => if b = 0 then some [] else (cStringOf rest).map (fun s => b :: s)

/-- The C string starting at the pointer `p`. -/
def cString (mem : List Byte) (p : Nat) : Option (List Byte) :=
  cStringOf (mem.drop p)

/-- The name obtained through `getEventName`: the C string starting at the
returned `char*`. -/
def eventName (mem : List Byte) (event : Nat) : Option (List Byte) :=
  cString mem (getEventName event)

/-- The four bytes of a `uint32_t` value in memory order. -/
def bytesU32 (bo : ByteOrder) (n : Nat) : List Byte :=
  let b0 : Byte := ⟨n % 256, Nat.mod_lt _ (by decide)⟩
  let b1 : Byte := ⟨n / 256 % 256, Nat.mod_lt _ (by decide)⟩
  let b2 : Byte := ⟨n / 65536 % 256, Nat.mod_lt _ (by decide)⟩
  let b3 : Byte := ⟨n / 16777216 % 256, Nat.mod_lt _ (by decide)⟩
  match bo with
  | .little => [b0, b1, b2, b3]
  | .big => [b3, b2, b1, b0]

/-- Modelled from the spec: the fixed header of a raw record as it lies in
memory: watch identifier, classification bitmask, cookie and `nameLen`, each a
32-bit field (the layout of `struct inotify_event`). -/
def headerBytes (bo : ByteOrder) (wd mask cookie len : Nat) : List Byte :=
  bytesU32 bo wd ++ bytesU32 bo mask ++ bytesU32 bo cookie ++ bytesU32 bo len

/-- A raw notification record: the three header fields and the name window,
that is the `nameLen` bytes that follow the header (name, null, padding).
The header's `len` field is the length of the window. -/
structure RawRecord where
  wd : Nat
  mask : Nat
  cookie : Nat
  window : List Byte

/-- The bytes of a raw record: its header, with `len` the length of the
window, followed by the window. -/
def RawRecord.bytes (bo : ByteOrder) (r : RawRecord) : List Byte :=
  headerBytes bo r.wd r.mask r.cookie r.window.length ++ r.window

/-- A buffer formed by concatenating records with no gaps. -/
def concatRecords (bo : ByteOrder) : List RawRecord → List Byte
  | [] => []
  | r :: rs => r.bytes bo ++ concatRecords bo rs

/-- Start offsets of consecutive records, the first one at `start`: a record
ends where the next one starts. -/
def recordStarts : Nat → List RawRecord → List Nat
  | _, [] => []
  | start, r :: rs =>
    start :: recordStarts (start + (sizeofInotifyEvent + r.window.length)) rs

/-- A record is valid for the accessors when its byte length, header plus
window, is a value of the `uint32_t` stride. -/
def ValidRecord (r : RawRecord) : Prop :=
  sizeofInotifyEvent + r.window.length < UINT32_MOD

instance (r : RawRecord) : Decidable (ValidRecord r) := by
  unfold ValidRecord; infer_instance

/-- How a walk over a buffer ended. -/
inductive WalkStatus where
  | finished
  | fault
  | outOfFuel
  deriving DecidableEq, Repr

/-- Result of a walk: the cursors visited, in order, the last cursor, and how
the walk ended. -/
structure WalkResult where
  visited : List Nat
  cursor : Nat
  status : WalkStatus
  deriving DecidableEq, Repr

/-- Modelled from the spec: the cursor-advance loop of the decoder, which is in
the caller of the two accessors and not among the sources: "maintain a cursor
starting at offset 0. While `cursor < length`: ... advance `cursor += stride`",
the stride being `getEventStride` of the record at the cursor.  The loop runs
at most `fuel` times (`outOfFuel` when that is not enough); `fault` when the
header at the cursor cannot be loaded from memory. -/
def walk (bo : ByteOrder) (mem : List Byte) (length : Nat) : Nat → Nat → WalkResult
  | fuel, cursor =>
    if length ≤ cursor then ⟨[], cursor, .finished⟩
    else
      match fuel with
      | 0 => ⟨[], cursor, .outOfFuel⟩
      | fuel + 1 =>
        match getEventStride bo mem cursor with
        | none => ⟨[cursor], cursor, .fault⟩
        | some stride =>
          let r := walk bo mem length fuel (cursor + stride)
          ⟨cursor :: r.visited, r.cursor, r.status⟩

/-- Length of the name window of an encoded name of `n` bytes: `n + 1` (the
name and its null) rounded up to a multiple of the alignment unit. -/
def paddedLen (align n : Nat) : Nat :=
  (n + 1 + (align - 1)) / align * align

/-- Encoder following the spec's words, "encoding a Decoded Event back into the
raw layout (header + name + null + padding to the alignment unit)": the header
with `len` the padded name length, the name, a null, and padding bytes
`fill 0, fill 1, ...` (padding has no defined content). -/
def encodeEvent (bo : ByteOrder) (align : Nat) (fill : Nat → Byte)
    (wd mask cookie : Nat) (name : List Byte) : List Byte :=
  headerBytes bo wd mask cookie (paddedLen align name.length) ++ name ++ [0] ++
    (List.range (paddedLen align name.length - (name.length + 1))).map fill

/-- A store by the caller: the bytes `bytes` written at offset `p`. -/
def overwrite (mem : List Byte) (p : Nat) (bytes : List Byte) : List Byte :=
  mem.take p ++ bytes ++ mem.drop (p + bytes.length)

/-- Outcome of a call: the value returned and the memory after the call. -/
structure Call (α : Type) where
  result : α
  memory : List Byte

/-- The call `getEventName(event)` as a state transformer: the body is one
`return` of an address and stores nothing. -/
def getEventNameCall (mem : List Byte) (event : Nat) : Call Nat :=
  ⟨getEventName event, mem⟩

/-- The call `getEventStride(event)` as a state transformer: the body loads
`e->len` and stores nothing. -/
def getEventStrideCall (bo : ByteOrder) (mem : List Byte) (event : Nat) : Call (Option Nat) :=
  ⟨getEventStride bo mem event, mem⟩

/-- The name window of the spec's scenario: `"a.txt\0"` and 10 padding bytes. -/
def aTxtWindow : List Byte :=
  [97, 46, 116, 120, 116, 0, 170, 171, 172, 173, 174, 175, 176, 177, 178, 179]

/-- The record of the spec's first scenario: `nameLen = 16`, name `"a.txt"`. -/
def aTxtRecord : RawRecord :=
  ⟨1, 2, 0, aTxtWindow⟩

/-- A watch-removed-style record: `IN_IGNORED`, `nameLen = 0`. -/
def ignoredRecord : RawRecord :=
  ⟨1, 32768, 0, []⟩

/-- A queue-overflow record: watch id -1 (all bits set), `IN_Q_OVERFLOW`,
`nameLen = 0`. -/
def overflowRecord : RawRecord :=
  ⟨4294967295, 16384, 0, []⟩

/-- A record whose 16-byte name window holds no null byte (16 times `x`). -/
def unterminatedRecord : RawRecord :=
  ⟨1, 2, 0, List.replicate 16 120⟩

/-- Memory of 16 bytes read as a buffer of valid length 15: a header cut one
byte short, the byte at offset 15 lying beyond the valid length. -/
def shortBufferA : List Byte :=
  [1, 0, 0, 0, 2, 0, 0, 0, 0, 0, 0, 0, 0, 0, 0, 0]

/-- The same 15 valid bytes as `shortBufferA`, another byte at offset 15. -/
def shortBufferB : List Byte :=
  [1, 0, 0, 0, 2, 0, 0, 0, 0, 0, 0, 0, 0, 0, 0, 1]

/-! ## Loads from a header laid out in memory -/

theorem getElem?_append_add {α : Type} (pre l : List α) (i : Nat) :
    (pre ++ l)[pre.length + i]? = l[i]? := by
  rw [List.getElem?_append_right (Nat.le_add_right _ _)]
  simp

theorem loadU32_append_cons (bo : ByteOrder) (pre rest : List Byte) (b0 b1 b2 b3 : Byte) :
    loadU32 bo (pre ++ b0 :: b1 :: b2 :: b3 :: rest) pre.length =
      some (combineU32 bo b0 b1 b2 b3) := by
  have e0 := getElem?_append_add pre (b0 :: b1 :: b2 :: b3 :: rest) 0
  have e1 := getElem?_append_add pre (b0 :: b1 :: b2 :: b3 :: rest) 1
  have e2 := getElem?_append_add pre (b0 :: b1 :: b2 :: b3 :: rest) 2
  have e3 := getElem?_append_add pre (b0 :: b1 :: b2 :: b3 :: rest) 3
  rw [Nat.add_zero] at e0
  simp only [loadU32, e0, e1, e2, e3, List.getElem?_cons_zero, List.getElem?_cons_succ]

theorem loadU32_bytesU32 (bo : ByteOrder) (pre rest : List Byte) (n : Nat) :
    loadU32 bo (pre ++ (bytesU32 bo n ++ rest)) pre.length = some (n % UINT32_MOD) := by
  cases bo <;>
    simp only [bytesU32, List.cons_append, List.nil_append, loadU32_append_cons, combineU32,
      UINT32_MOD, Option.some.injEq] <;>
    omega

theorem length_bytesU32 (bo : ByteOrder) (n : Nat) : (bytesU32 bo n).length = 4 := by
  cases bo <;> rfl

theorem length_headerBytes (bo : ByteOrder) (wd mask cookie len : Nat) :
    (headerBytes bo wd mask cookie len).length = sizeofInotifyEvent := by
  simp [headerBytes, length_bytesU32, sizeofInotifyEvent]

theorem loadU32_len_header (bo : ByteOrder) (pre rest : List Byte) (wd mask cookie len : Nat) :
    loadU32 bo (pre ++ (headerBytes bo wd mask cookie len ++ rest)) (pre.length + offsetofLen) =
      some (len % UINT32_MOD) := by
  have h := loadU32_bytesU32 bo (pre ++ (bytesU32 bo wd ++ bytesU32 bo mask ++ bytesU32 bo cookie))
    rest len
  have hl : (pre ++ (bytesU32 bo wd ++ bytesU32 bo mask ++ bytesU32 bo cookie)).length =
      pre.length + offsetofLen := by
    simp [length_bytesU32, offsetofLen]
  rw [hl] at h
  rw [← h]
  simp [headerBytes, List.append_assoc]

theorem getEventStride_header (bo : ByteOrder) (pre rest : List Byte) (wd mask cookie len : Nat) :
    getEventStride bo (pre ++ (headerBytes bo wd mask cookie len ++ rest)) pre.length =
      some ((sizeofInotifyEvent + len % UINT32_MOD) % UINT32_MOD) := by
  simp only [getEventStride, loadU32_len_header]

theorem getEventStride_header_of_fits (bo : ByteOrder) (pre rest : List Byte)
    (wd mask cookie len : Nat) (h : sizeofInotifyEvent + len < UINT32_MOD) :
    getEventStride bo (pre ++ (headerBytes bo wd mask cookie len ++ rest)) pre.length =
      some (sizeofInotifyEvent + len) := by
  rw [getEventStride_header, Nat.mod_eq_of_lt (by omega : len < UINT32_MOD), Nat.mod_eq_of_lt h]

theorem loadU32_of_le_length (bo : ByteOrder) (mem : List Byte) (a : Nat)
    (h : a + 4 ≤ mem.length) :
    ∃ b0 b1 b2 b3, mem[a]? = some b0 ∧ mem[a + 1]? = some b1 ∧ mem[a + 2]? = some b2 ∧
      mem[a + 3]? = some b3 ∧ loadU32 bo mem a = some (combineU32 bo b0 b1 b2 b3) := by
  have h0 : a < mem.length := by omega
  have h1 : a + 1 < mem.length := by omega
  have h2 : a + 2 < mem.length := by omega
  have h3 : a + 3 < mem.length := by omega
  refine ⟨mem[a], mem[a + 1], mem[a + 2], mem[a + 3], List.getElem?_eq_getElem h0,
    List.getElem?_eq_getElem h1, List.getElem?_eq_getElem h2, List.getElem?_eq_getElem h3, ?_⟩
  simp only [loadU32, List.getElem?_eq_getElem h0, List.getElem?_eq_getElem h1,
    List.getElem?_eq_getElem h2, List.getElem?_eq_getElem h3]

/-! ## The C string after a header -/

theorem drop_header (bo : ByteOrder) (pre rest : List Byte) (wd mask cookie len : Nat) :
    (pre ++ (headerBytes bo wd mask cookie len ++ rest)).drop (getEventName pre.length) = rest := by
  have h : getEventName pre.length = (pre ++ headerBytes bo wd mask cookie len).length := by
    simp [getEventName, offsetofName, length_headerBytes, sizeofInotifyEvent]
  rw [h, ← List.append_assoc, List.drop_left]

theorem eventName_header (bo : ByteOrder) (pre rest : List Byte) (wd mask cookie len : Nat) :
    eventName (pre ++ (headerBytes bo wd mask cookie len ++ rest)) pre.length = cStringOf rest := by
  simp only [eventName, cString, drop_header]

theorem cStringOf_append_of_mem (w rest : List Byte) (h : (0 : Byte) ∈ w) :
    cStringOf (w ++ rest) = some (w.takeWhile (fun b => b ≠ 0)) := by
  induction w with
  | nil => simp at h
  | cons b w ih =>
    by_cases hb : b = 0
    · simp [cStringOf, hb]
    · have hw : (0 : Byte) ∈ w := by
        rcases List.mem_cons.mp h with h0 | h0
        · exact absurd h0.symm hb
        · exact h0
      simp [cStringOf, hb, ih hw]

theorem cStringOf_append_of_not_mem (w rest : List Byte) (h : (0 : Byte) ∉ w) :
    cStringOf (w ++ rest) = (cStringOf rest).map (fun s => w ++ s) := by
  induction w with
  | nil => simp
  | cons b w ih =>
    have hb : b ≠ 0 := fun e => h (by simp [e])
    have hw : (0 : Byte) ∉ w := fun e => h (List.mem_cons_of_mem _ e)
    simp [cStringOf, hb, ih hw, Option.map_map, Function.comp_def]

/-- Overwriting the name window of a record in place: the bytes before the
window (header included) and after it are kept. -/
theorem overwrite_window (bo : ByteOrder) (pre rest w w' : List Byte) (wd mask cookie len : Nat)
    (hw : w'.length = w.length) :
    overwrite (pre ++ (headerBytes bo wd mask cookie len ++ (w ++ rest)))
      (getEventName pre.length) w' =
      pre ++ (headerBytes bo wd mask cookie len ++ (w' ++ rest)) := by
  have hp : getEventName pre.length = (pre ++ headerBytes bo wd mask cookie len).length := by
    simp [getEventName, offsetofName, length_headerBytes, sizeofInotifyEvent]
  have hq : getEventName pre.length + w'.length =
      (pre ++ headerBytes bo wd mask cookie len ++ w).length := by
    rw [hp, hw]; simp [Nat.add_assoc]
  unfold overwrite
  rw [hq]
  rw [hp]
  have e1 : pre ++ (headerBytes bo wd mask cookie len ++ (w ++ rest)) =
      (pre ++ headerBytes bo wd mask cookie len) ++ (w ++ rest) := by simp
  have e2 : pre ++ (headerBytes bo wd mask cookie len ++ (w ++ rest)) =
      (pre ++ headerBytes bo wd mask cookie len ++ w) ++ rest := by simp
  rw [show List.take (pre ++ headerBytes bo wd mask cookie len).length
      (pre ++ (headerBytes bo wd mask cookie len ++ (w ++ rest))) =
      pre ++ headerBytes bo wd mask cookie len by rw [e1, List.take_left]]
  rw [show List.drop (pre ++ headerBytes bo wd mask cookie len ++ w).length
      (pre ++ (headerBytes bo wd mask cookie len ++ (w ++ rest))) = rest by
      rw [e2, List.drop_left]]
  simp

/-! ## The cursor walk -/

theorem walk_of_le (bo : ByteOrder) (mem : List Byte) (length fuel cursor : Nat)
    (h : length ≤ cursor) : walk bo mem length fuel cursor = ⟨[], cursor, .finished⟩ := by
  cases fuel <;> simp [walk, h]

theorem walk_succ_of_stride (bo : ByteOrder) (mem : List Byte) (length fuel cursor stride : Nat)
    (h : cursor < length) (hs : getEventStride bo mem cursor = some stride) :
    walk bo mem length (fuel + 1) cursor =
      ⟨cursor :: (walk bo mem length fuel (cursor + stride)).visited,
        (walk bo mem length fuel (cursor + stride)).cursor,
        (walk bo mem length fuel (cursor + stride)).status⟩ := by
  simp [walk, Nat.not_le.mpr h, hs]

theorem walk_succ_of_none (bo : ByteOrder) (mem : List Byte) (length fuel cursor : Nat)
    (h : cursor < length) (hs : getEventStride bo mem cursor = none) :
    walk bo mem length (fuel + 1) cursor = ⟨[cursor], cursor, .fault⟩ := by
  simp [walk, Nat.not_le.mpr h, hs]

theorem walk_zero_of_lt (bo : ByteOrder) (mem : List Byte) (length cursor : Nat)
    (h : cursor < length) :
    walk bo mem length 0 cursor = ⟨[], cursor, .outOfFuel⟩ := by
  simp [walk, Nat.not_le.mpr h]

theorem length_recordBytes (bo : ByteOrder) (r : RawRecord) :
    (r.bytes bo).length = sizeofInotifyEvent + r.window.length := by
  simp [RawRecord.bytes, length_headerBytes]

theorem length_recordStarts (rs : List RawRecord) :
    ∀ start, (recordStarts start rs).length = rs.length := by
  induction rs with
  | nil => intro _; rfl
  | cons r rs ih => intro start; simp [recordStarts, ih]

/-- The walk over records packed after any bytes `pre`, started at their first
record: it visits the record starts and stops at the end of the last one. -/
theorem walk_concatRecords (bo : ByteOrder) (rs : List RawRecord) :
    ∀ (pre extra : List Byte) (fuel : Nat), (∀ r ∈ rs, ValidRecord r) → rs.length ≤ fuel →
      walk bo (pre ++ (concatRecords bo rs ++ extra)) (pre.length + (concatRecords bo rs).length)
        fuel pre.length =
      ⟨recordStarts pre.length rs, pre.length + (concatRecords bo rs).length, .finished⟩ := by
  induction rs with
  | nil =>
    intro pre extra fuel _ _
    simp [concatRecords, recordStarts, walk_of_le]
  | cons r rs ih =>
    intro pre extra fuel hv hf
    obtain ⟨fuel, rfl⟩ : ∃ f, fuel = f + 1 := ⟨fuel - 1, by simp at hf; omega⟩
    have hr : ValidRecord r := hv r (List.mem_cons_self _ _)
    have hlt : pre.length < pre.length + (concatRecords bo (r :: rs)).length := by
      simp [concatRecords, length_recordBytes, sizeofInotifyEvent]
    have hs : getEventStride bo (pre ++ (concatRecords bo (r :: rs) ++ extra)) pre.length =
        some (sizeofInotifyEvent + r.window.length) := by
      simp only [concatRecords, RawRecord.bytes, List.append_assoc]
      exact getEventStride_header_of_fits bo pre _ r.wd r.mask r.cookie r.window.length hr
    have hmem : pre ++ (concatRecords bo (r :: rs) ++ extra) =
        (pre ++ r.bytes bo) ++ (concatRecords bo rs ++ extra) := by
      simp [concatRecords, List.append_assoc]
    have hlen : pre.length + (sizeofInotifyEvent + r.window.length) =
        (pre ++ r.bytes bo).length := by
      simp [length_recordBytes]
    have hend : pre.length + (concatRecords bo (r :: rs)).length =
        (pre ++ r.bytes bo).length + (concatRecords bo rs).length := by
      simp [concatRecords, length_recordBytes]; omega
    rw [walk_succ_of_stride bo _ _ fuel _ _ hlt hs, hmem, hend, hlen,
      ih (pre ++ r.bytes bo) extra fuel (fun x hx => hv x (List.mem_cons_of_mem _ hx))
        (by simpa using hf)]
    simp [recordStarts, hlen]

theorem le_getEventStride_of_fits (bo : ByteOrder) (mem : List Byte) (cursor stride : Nat)
    (hfit : ∀ len ∈ loadU32 bo mem (cursor + offsetofLen), sizeofInotifyEvent + len < UINT32_MOD)
    (hs : getEventStride bo mem cursor = some stride) : sizeofInotifyEvent ≤ stride := by
  unfold getEventStride at hs
  cases hl : loadU32 bo mem (cursor + offsetofLen) with
  | none => simp [hl] at hs
  | some len =>
    have h := hfit len (by simp [hl])
    simp only [hl, Option.some.injEq] at hs
    rw [Nat.mod_eq_of_lt h] at hs
    omega

/-- The walk from any cursor, when the record at every cursor it visits has a
stride that does not wrap: it ends within `⌈(length - cursor) / 16⌉` steps, and
the cursors visited increase strictly. -/
theorem walk_bounded_of_visited (bo : ByteOrder) (mem : List Byte) (length : Nat) :
    ∀ (fuel cursor : Nat), (length - cursor + 15) / 16 ≤ fuel →
      (∀ c ∈ (walk bo mem length fuel cursor).visited,
        ∀ len ∈ loadU32 bo mem (c + offsetofLen), sizeofInotifyEvent + len < UINT32_MOD) →
      (walk bo mem length fuel cursor).status ≠ .outOfFuel ∧
      (walk bo mem length fuel cursor).visited.length ≤ (length - cursor + 15) / 16 ∧
      (∀ v ∈ (walk bo mem length fuel cursor).visited, cursor ≤ v ∧ v < length) ∧
      (walk bo mem length fuel cursor).visited.Pairwise (fun a b => a < b) ∧
      ((walk bo mem length fuel cursor).status = .finished →
        length ≤ (walk bo mem length fuel cursor).cursor ∧
        cursor + 16 * (walk bo mem length fuel cursor).visited.length ≤
          (walk bo mem length fuel cursor).cursor) := by
  intro fuel
  induction fuel with
  | zero =>
    intro cursor hf _
    have hle : length ≤ cursor := by omega
    rw [walk_of_le bo mem length 0 cursor hle]
    simp [hle]
  | succ fuel ih =>
    intro cursor hf hv
    by_cases hle : length ≤ cursor
    · rw [walk_of_le bo mem length _ cursor hle]
      simp [hle]
    · have hlt : cursor < length := Nat.lt_of_not_le hle
      cases hs : getEventStride bo mem cursor with
      | none =>
        rw [walk_succ_of_none bo mem length fuel cursor hlt hs]
        refine ⟨by simp, ?_, ?_, by simp, by simp⟩
        · simp only [List.length_singleton]; omega
        · intro v hv
          simp only [List.mem_singleton] at hv
          omega
      | some stride =>
        rw [walk_succ_of_stride bo mem length fuel cursor stride hlt hs] at hv ⊢
        have h16 : sizeofInotifyEvent ≤ stride :=
          le_getEventStride_of_fits bo mem cursor stride (hv cursor (List.mem_cons_self _ _)) hs
        simp only [sizeofInotifyEvent] at h16
        obtain ⟨i1, i2, i3, i4, i5⟩ :=
          ih (cursor + stride) (by omega) (fun c hc => hv c (List.mem_cons_of_mem _ hc))
        refine ⟨i1, ?_, ?_, ?_, ?_⟩
        · simp only [List.length_cons]; omega
        · intro v hv
          rcases List.mem_cons.mp hv with h | h
          · omega
          · have := i3 v h; omega
        · refine List.pairwise_cons.mpr ⟨?_, i4⟩
          intro v hv
          have := i3 v hv; omega
        · intro hfin
          have := i5 hfin
          simp only [List.length_cons]
          omega

/-! ## Encoded records -/

theorem le_paddedLen (align n : Nat) (ha : 0 < align) : n + 1 ≤ paddedLen align n := by
  unfold paddedLen
  have h1 := Nat.div_add_mod (n + 1 + (align - 1)) align
  have h2 := Nat.mod_lt (n + 1 + (align - 1)) ha
  rw [Nat.mul_comm] at h1
  omega

theorem length_encodeEvent (bo : ByteOrder) (align : Nat) (fill : Nat → Byte)
    (wd mask cookie : Nat) (name : List Byte) (ha : 0 < align) :
    (encodeEvent bo align fill wd mask cookie name).length =
      sizeofInotifyEvent + paddedLen align name.length := by
  have h := le_paddedLen align name.length ha
  simp only [encodeEvent, List.length_append, length_headerBytes, List.length_map,
    List.length_range, List.length_cons, List.length_nil]
  omega

theorem encodeEvent_eq (bo : ByteOrder) (align : Nat) (fill : Nat → Byte)
    (wd mask cookie : Nat) (name rest : List Byte) :
    encodeEvent bo align fill wd mask cookie name ++ rest =
      headerBytes bo wd mask cookie (paddedLen align name.length) ++
        (name ++ (0 :: ((List.range (paddedLen align name.length - (name.length + 1))).map fill
          ++ rest))) := by
  simp [encodeEvent, List.append_assoc]

theorem eventName_encodeEvent (bo : ByteOrder) (align : Nat) (fill : Nat → Byte)
    (wd mask cookie : Nat) (pre name rest : List Byte) (hname : (0 : Byte) ∉ name) :
    eventName (pre ++ (encodeEvent bo align fill wd mask cookie name ++ rest)) pre.length =
      some name := by
  rw [encodeEvent_eq, eventName_header, cStringOf_append_of_not_mem _ _ hname]
  simp [cStringOf]

theorem getEventStride_encodeEvent (bo : ByteOrder) (align : Nat) (fill : Nat → Byte)
    (wd mask cookie : Nat) (pre name rest : List Byte) :
    getEventStride bo (pre ++ (encodeEvent bo align fill wd mask cookie name ++ rest)) pre.length =
      some ((sizeofInotifyEvent + paddedLen align name.length % UINT32_MOD) % UINT32_MOD) := by
  rw [encodeEvent_eq, getEventStride_header]

/-- An encoded name of `2^32 - 17` bytes, alignment unit 16: the record has
`2^32` bytes and the stride is 0. -/
theorem encodeEvent_huge (name : List Byte) (hlen : name.length = 4294967279) :
    getEventStride .little (encodeEvent .little 16 (fun _ => 0) 1 2 0 name) 0 = some 0 ∧
    (encodeEvent .little 16 (fun _ => 0) 1 2 0 name).length = 4294967296 := by
  have hp : paddedLen 16 name.length = 4294967280 := by rw [hlen]; decide
  constructor
  · have h := getEventStride_encodeEvent .little 16 (fun _ => 0) 1 2 0 [] name []
    simp only [List.nil_append, List.append_nil, List.length_nil] at h
    rw [h, hp]
    decide
  · rw [length_encodeEvent _ _ _ _ _ _ _ (by decide), hp]
    decide

/-! ## Main results -/

/-- C1, counterexample: the claim holds "for every value of the 32-bit len
field", but a header with `len = 4294967280 = 2^32 - 16` has stride `0`, not
`16 + 4294967280`: the sum is converted to the `uint32_t` return type. -/
theorem getEventStride_wraps_at_max_len :
    loadU32 .little (headerBytes .little 1 2 0 4294967280) (0 + offsetofLen) = some 4294967280 ∧
    getEventStride .little (headerBytes .little 1 2 0 4294967280) 0 = some 0 ∧
    getEventStride .little (headerBytes .little 1 2 0 4294967280) 0 ≠
      some (sizeofInotifyEvent + 4294967280) := by
  decide

/-- C1, as amended: for every raw record whose `len` field is at most
`2^32 - 17`, wherever the record lies in memory and whatever its other fields
and the bytes around it are, the `len` loaded from its header is that field and
`getEventStride` returns exactly `headerSize + nameLen`, with `headerSize = 16`.
-/
theorem getEventStride_eq_header_add_len (bo : ByteOrder) (pre rest : List Byte)
    (wd mask cookie len : Nat) (hlen : len ≤ 4294967279) :
    loadU32 bo (pre ++ (headerBytes bo wd mask cookie len ++ rest)) (pre.length + offsetofLen) =
      some len ∧
    getEventStride bo (pre ++ (headerBytes bo wd mask cookie len ++ rest)) pre.length =
      some (sizeofInotifyEvent + len) := by
  have hfit : sizeofInotifyEvent + len < UINT32_MOD := by
    simp only [sizeofInotifyEvent, UINT32_MOD]; omega
  refine ⟨?_, getEventStride_header_of_fits bo pre rest wd mask cookie len hfit⟩
  rw [loadU32_len_header, Nat.mod_eq_of_lt (by omega)]

/-- C1, witness: the record with `nameLen = 16` has stride 32. -/
theorem getEventStride_eq_header_add_len_witness :
    (16 : Nat) ≤ 4294967279 ∧
    getEventStride .little ([] ++ (headerBytes .little 1 2 0 16 ++ aTxtWindow)) 0 = some 32 :=
  ⟨by decide, (getEventStride_eq_header_add_len .little [] aTxtWindow 1 2 0 16 (by decide)).2⟩

/-- C2: for every record whose name window contains a null byte, the pointer
returned by `getEventName` is header-end (record start + 16), the bytes from
there on are the window, and the C string read there is exactly the bytes of
the window before its first null: no header byte, no padding byte. -/
theorem eventName_eq_window_before_null (bo : ByteOrder) (pre rest : List Byte) (r : RawRecord)
    (hnull : (0 : Byte) ∈ r.window) :
    getEventName pre.length = pre.length + sizeofInotifyEvent ∧
    (pre ++ (r.bytes bo ++ rest)).drop (getEventName pre.length) = r.window ++ rest ∧
    eventName (pre ++ (r.bytes bo ++ rest)) pre.length =
      some (r.window.takeWhile (fun b => b ≠ 0)) := by
  refine ⟨rfl, ?_, ?_⟩
  · rw [RawRecord.bytes, List.append_assoc, drop_header]
  · rw [RawRecord.bytes, List.append_assoc, eventName_header, cStringOf_append_of_mem _ _ hnull]

/-- C2, witness: the window `"a.txt\0"` + 10 padding bytes gives `"a.txt"`. -/
theorem eventName_eq_window_before_null_witness :
    (0 : Byte) ∈ aTxtRecord.window ∧
    eventName ([] ++ (aTxtRecord.bytes .little ++ [])) 0 = some [97, 46, 116, 120, 116] :=
  ⟨by decide, (eventName_eq_window_before_null .little [] [] aTxtRecord (by decide)).2.2⟩

/-- C4, counterexample: the name of `2^32 - 17` bytes `1` contains no null; its
encoding with alignment unit 16 is a record of `2^32` bytes with
`len = 2^32 - 16`, and `getEventStride` returns 0 on it, not the byte length of
the encoded record. -/
theorem roundtrip_fails_on_huge_name :
    (0 : Byte) ∉ List.replicate 4294967279 (1 : Byte) ∧
    getEventStride .little
      (encodeEvent .little 16 (fun _ => 0) 1 2 0 (List.replicate 4294967279 1)) 0 = some 0 ∧
    (encodeEvent .little 16 (fun _ => 0) 1 2 0 (List.replicate 4294967279 1)).length =
      4294967296 :=
  ⟨fun h => absurd (List.eq_of_mem_replicate h) (by decide),
    encodeEvent_huge _ (List.length_replicate _ _)⟩

/-- C4, as amended: round trip for every name containing no null byte whose
encoded record is shorter than `2^32` bytes (`16 + padded name length < 2^32`),
for every positive alignment unit, padding content, header fields and
surrounding bytes: the name obtained through `getEventName` is the encoded
name, and `getEventStride` is the byte length of the encoded record. -/
theorem roundtrip_encodeEvent (bo : ByteOrder) (align : Nat) (fill : Nat → Byte)
    (wd mask cookie : Nat) (pre name rest : List Byte) (halign : 0 < align)
    (hname : (0 : Byte) ∉ name)
    (hfit : sizeofInotifyEvent + paddedLen align name.length < UINT32_MOD) :
    eventName (pre ++ (encodeEvent bo align fill wd mask cookie name ++ rest)) pre.length =
      some name ∧
    getEventStride bo (pre ++ (encodeEvent bo align fill wd mask cookie name ++ rest)) pre.length =
      some (encodeEvent bo align fill wd mask cookie name).length := by
  refine ⟨eventName_encodeEvent bo align fill wd mask cookie pre name rest hname, ?_⟩
  rw [getEventStride_encodeEvent, length_encodeEvent _ _ _ _ _ _ _ halign,
    Nat.mod_eq_of_lt (by omega : paddedLen align name.length < UINT32_MOD), Nat.mod_eq_of_lt hfit]

/-- C4, witness: `"a.txt"` encoded with alignment unit 16 reads back as
`"a.txt"` with stride 32. -/
theorem roundtrip_encodeEvent_witness :
    0 < 16 ∧ (0 : Byte) ∉ [97, 46, 116, 120, 116] ∧
    sizeofInotifyEvent + paddedLen 16 [(97 : Byte), 46, 116, 120, 116].length < UINT32_MOD ∧
    eventName ([] ++ (encodeEvent .little 16 (fun _ => 170) 1 2 0 [97, 46, 116, 120, 116] ++ []))
      0 = some [97, 46, 116, 120, 116] ∧
    getEventStride .little
      ([] ++ (encodeEvent .little 16 (fun _ => 170) 1 2 0 [97, 46, 116, 120, 116] ++ [])) 0 =
      some 32 :=
  ⟨by decide, by decide, by decide,
    roundtrip_encodeEvent .little 16 (fun _ => 170) 1 2 0 [] [97, 46, 116, 120, 116] []
      (by decide) (by decide) (by decide)⟩

/-- C5: `getEventStride` takes the header's `nameLen` as authoritative: two
records with the same `len` field have the same stride, whatever their watch
ids, masks, cookies, name bytes (the bytes after the header, hence also the
length of the name string and the position of its null) and position in
memory are; that value is defined and is a function of `len` alone. -/
theorem getEventStride_depends_only_on_len (bo : ByteOrder) (len : Nat)
    (pre₁ rest₁ : List Byte) (wd₁ mask₁ cookie₁ : Nat)
    (pre₂ rest₂ : List Byte) (wd₂ mask₂ cookie₂ : Nat) :
    getEventStride bo (pre₁ ++ (headerBytes bo wd₁ mask₁ cookie₁ len ++ rest₁)) pre₁.length =
      getEventStride bo (pre₂ ++ (headerBytes bo wd₂ mask₂ cookie₂ len ++ rest₂)) pre₂.length ∧
    getEventStride bo (pre₁ ++ (headerBytes bo wd₁ mask₁ cookie₁ len ++ rest₁)) pre₁.length =
      some ((sizeofInotifyEvent + len % UINT32_MOD) % UINT32_MOD) := by
  rw [getEventStride_header, getEventStride_header]
  exact ⟨rfl, rfl⟩

/-- C6, counterexample: a record with `nameLen = 0` followed by the header of
the next record (watch id 1): the name obtained through `getEventName` is the
one byte `1`, not empty; the scan for a null went into the next header. -/
theorem eventName_nonempty_when_len_zero :
    loadU32 .little (concatRecords .little [ignoredRecord, aTxtRecord]) (0 + offsetofLen) =
      some 0 ∧
    eventName (concatRecords .little [ignoredRecord, aTxtRecord]) 0 = some [1] := by
  decide

/-- C6, as amended: for every record with `nameLen == 0`, `getEventName` still
returns header-end and the name obtained through it is the C string of the
bytes that follow the header in memory (`nameLen` is not consulted): it is
empty exactly when the first byte after the header is null. -/
theorem eventName_len_zero (bo : ByteOrder) (pre rest : List Byte) (wd mask cookie : Nat) :
    getEventName pre.length = pre.length + sizeofInotifyEvent ∧
    eventName (pre ++ (headerBytes bo wd mask cookie 0 ++ rest)) pre.length = cStringOf rest ∧
    (eventName (pre ++ (headerBytes bo wd mask cookie 0 ++ rest)) pre.length = some [] ↔
      rest.head? = some 0) := by
  refine ⟨rfl, eventName_header bo pre rest wd mask cookie 0, ?_⟩
  rw [eventName_header]
  cases rest with
  | nil => simp [cStringOf]
  | cons b rest =>
    by_cases hb : b = 0
    · simp [cStringOf, hb]
    · simp [cStringOf, hb]

/-- C7, counterexample: a 32-byte record whose 16-byte window holds no null,
followed in memory by the bytes `88, 0`: name extraction through
`getEventName` does not fail, and the name is the window plus the byte `88`
that lies at record start + headerSize + nameLen = 32, beyond the window. -/
theorem eventName_reads_past_window :
    (0 : Byte) ∉ unterminatedRecord.window ∧
    (unterminatedRecord.bytes .little).length = 32 ∧
    (unterminatedRecord.bytes .little ++ [88, 0])[32]? = some 88 ∧
    eventName (unterminatedRecord.bytes .little ++ [88, 0]) 0 =
      some (unterminatedRecord.window ++ [88]) := by
  decide

/-- C7, as amended: for every record whose name window contains no null byte,
the name obtained through `getEventName` is not bounded by the window: it is
the whole window followed by the C string of the bytes that come after the
window in memory (and has no defined value when memory ends before a null). -/
theorem eventName_unterminated_window (bo : ByteOrder) (pre rest : List Byte) (r : RawRecord)
    (hnonull : (0 : Byte) ∉ r.window) :
    eventName (pre ++ (r.bytes bo ++ rest)) pre.length =
      (cStringOf rest).map (fun s => r.window ++ s) := by
  rw [RawRecord.bytes, List.append_assoc, eventName_header,
    cStringOf_append_of_not_mem _ _ hnonull]

/-- C7, witness: the unterminated 16-byte window followed by `88, 0`. -/
theorem eventName_unterminated_window_witness :
    (0 : Byte) ∉ unterminatedRecord.window ∧
    eventName ([] ++ (unterminatedRecord.bytes .little ++ [88, 0])) 0 =
      (cStringOf [88, 0]).map (fun s => unterminatedRecord.window ++ s) :=
  ⟨by decide, eventName_unterminated_window .little [] [88, 0] unterminatedRecord (by decide)⟩

/-- C8, counterexample: a buffer of valid length 16 holding one header that
declares `nameLen = 16`: cursor + headerSize + nameLen = 32 > 16, and
`getEventStride` returns the stride 32, which moves the cursor past length. -/
theorem getEventStride_past_length :
    loadU32 .little (headerBytes .little 1 2 0 16) (0 + offsetofLen) = some 16 ∧
    (headerBytes .little 1 2 0 16).length = 16 ∧
    getEventStride .little (headerBytes .little 1 2 0 16) 0 = some 32 ∧
    0 + 32 > 16 := by
  decide

/-- C8, as amended: for every record at offset cursor whose header declares a
`nameLen` of at most `2^32 - 17` with cursor + headerSize + nameLen > length,
`getEventStride`, which is given the record only and no length, returns
headerSize + nameLen: a stride that moves the cursor past length. -/
theorem getEventStride_ignores_length (bo : ByteOrder) (pre rest : List Byte)
    (wd mask cookie len length : Nat) (hlen : len ≤ 4294967279)
    (htrunc : pre.length + sizeofInotifyEvent + len > length) :
    ∃ stride,
      getEventStride bo (pre ++ (headerBytes bo wd mask cookie len ++ rest)) pre.length =
        some stride ∧
      stride = sizeofInotifyEvent + len ∧ pre.length + stride > length := by
  have hfit : sizeofInotifyEvent + len < UINT32_MOD := by
    simp only [sizeofInotifyEvent, UINT32_MOD]; omega
  exact ⟨_, getEventStride_header_of_fits bo pre rest wd mask cookie len hfit, rfl, by omega⟩

/-- C8, witness: the header declaring `nameLen = 16` in a 16-byte buffer. -/
theorem getEventStride_ignores_length_witness :
    (16 : Nat) ≤ 4294967279 ∧ ([] : List Byte).length + sizeofInotifyEvent + 16 > 16 ∧
    ∃ stride,
      getEventStride .little ([] ++ (headerBytes .little 1 2 0 16 ++ [])) ([] : List Byte).length =
        some stride ∧
      stride = sizeofInotifyEvent + 16 ∧ ([] : List Byte).length + stride > 16 :=
  ⟨by decide, by decide,
    getEventStride_ignores_length .little [] [] 1 2 0 16 16 (by decide) (by decide)⟩

/-- C9, counterexample: two memories that agree on the 15 valid bytes of a
buffer of length 15 = headerSize - 1 and differ at offset 15: `getEventStride`
produces a stride on both, and the two strides differ, so the `len` field was
read from a byte beyond length. -/
theorem getEventStride_reads_past_short_buffer :
    shortBufferA.take 15 = shortBufferB.take 15 ∧
    getEventStride .little shortBufferA 0 = some 16 ∧
    getEventStride .little shortBufferB 0 = some 16777232 := by
  decide

/-- C9, as amended: when fewer than headerSize bytes remain at the cursor and
the 16 bytes at the cursor are in memory, `getEventStride`, which is given no
length, still produces a stride: `(16 + len) mod 2^32`, with `len` loaded from
the four bytes at cursor + 12 .. cursor + 15, the last of which lies at or
beyond length. -/
theorem getEventStride_truncated_header (bo : ByteOrder) (mem : List Byte) (cursor length : Nat)
    (hshort : length - cursor < sizeofInotifyEvent)
    (halloc : cursor + sizeofInotifyEvent ≤ mem.length) :
    ∃ b0 b1 b2 b3, mem[cursor + 12]? = some b0 ∧ mem[cursor + 13]? = some b1 ∧
      mem[cursor + 14]? = some b2 ∧ mem[cursor + 15]? = some b3 ∧ length ≤ cursor + 15 ∧
      getEventStride bo mem cursor =
        some ((sizeofInotifyEvent + combineU32 bo b0 b1 b2 b3) % UINT32_MOD) := by
  simp only [sizeofInotifyEvent] at hshort halloc
  obtain ⟨b0, b1, b2, b3, e0, e1, e2, e3, hl⟩ :=
    loadU32_of_le_length bo mem (cursor + offsetofLen) (by simp only [offsetofLen]; omega)
  refine ⟨b0, b1, b2, b3, e0, e1, e2, e3, by omega, ?_⟩
  simp only [getEventStride, hl]

/-- C9, witness: the 16-byte memory `shortBufferB` with valid length 15. -/
theorem getEventStride_truncated_header_witness :
    15 - 0 < sizeofInotifyEvent ∧ 0 + sizeofInotifyEvent ≤ shortBufferB.length ∧
    ∃ b0 b1 b2 b3, shortBufferB[0 + 12]? = some b0 ∧ shortBufferB[0 + 13]? = some b1 ∧
      shortBufferB[0 + 14]? = some b2 ∧ shortBufferB[0 + 15]? = some b3 ∧ 15 ≤ 0 + 15 ∧
      getEventStride .little shortBufferB 0 =
        some ((sizeofInotifyEvent + combineU32 .little b0 b1 b2 b3) % UINT32_MOD) :=
  ⟨by decide, by decide,
    getEventStride_truncated_header .little shortBufferB 0 15 (by decide) (by decide)⟩

/-- C11, counterexample: the value returned by `getEventName` for the record
`"a.txt"` at offset 0 is the offset 16, inside the caller's buffer; the name
read through it is `"a.txt"`, and after the caller overwrites the byte at
offset 16 with `b` the name read through the same result is `"b.txt"`. -/
theorem getEventName_result_aliases_buffer :
    getEventName 0 = 16 ∧ 16 < (aTxtRecord.bytes .little).length ∧
    (getEventNameCall (aTxtRecord.bytes .little) 0).result = 16 ∧
    cString (aTxtRecord.bytes .little) 16 = some [97, 46, 116, 120, 116] ∧
    cString (overwrite (aTxtRecord.bytes .little) 16 [98]) 16 = some [98, 46, 116, 120, 116] := by
  decide

/-- C11, as amended: the result of `getEventName` is a pointer into the
caller's buffer (record start + 16), not an independently owned copy: the name
read through it is the C string of the window as it is in the buffer, and once
the caller has overwritten the window with other bytes `w'` the name read
through the same result is the C string of `w'`; `getEventName` and
`getEventStride` leave the buffer unchanged. -/
theorem getEventName_returns_reference (bo : ByteOrder) (pre rest : List Byte) (r : RawRecord)
    (w' : List Byte) (hlen : w'.length = r.window.length) :
    (getEventNameCall (pre ++ (r.bytes bo ++ rest)) pre.length).result =
      pre.length + sizeofInotifyEvent ∧
    cString (pre ++ (r.bytes bo ++ rest))
      (getEventNameCall (pre ++ (r.bytes bo ++ rest)) pre.length).result =
      cStringOf (r.window ++ rest) ∧
    cString (overwrite (pre ++ (r.bytes bo ++ rest)) (getEventName pre.length) w')
      (getEventNameCall (pre ++ (r.bytes bo ++ rest)) pre.length).result =
      cStringOf (w' ++ rest) ∧
    (getEventNameCall (pre ++ (r.bytes bo ++ rest)) pre.length).memory =
      pre ++ (r.bytes bo ++ rest) ∧
    (getEventStrideCall bo (pre ++ (r.bytes bo ++ rest)) pre.length).memory =
      pre ++ (r.bytes bo ++ rest) := by
  refine ⟨rfl, ?_, ?_, rfl, rfl⟩
  · simp only [getEventNameCall, cString, RawRecord.bytes, List.append_assoc, drop_header]
  · simp only [getEventNameCall, cString, RawRecord.bytes, List.append_assoc]
    rw [overwrite_window bo pre rest r.window w' _ _ _ _ hlen, drop_header]

/-- C11, witness: the window `"a\0"` overwritten with `"b\0"`: the name read
through the pointer returned before the overwrite is `"b"`. -/
theorem getEventName_returns_reference_witness :
    [(98 : Byte), 0].length = (⟨1, 2, 0, [97, 0]⟩ : RawRecord).window.length ∧
    cString (overwrite ([] ++ ((⟨1, 2, 0, [97, 0]⟩ : RawRecord).bytes .little ++ []))
        (getEventName 0) [98, 0])
      (getEventNameCall ([] ++ ((⟨1, 2, 0, [97, 0]⟩ : RawRecord).bytes .little ++ [])) 0).result =
      some [98] :=
  ⟨by decide,
    (getEventName_returns_reference .little [] [] ⟨1, 2, 0, [97, 0]⟩ [98, 0] (by decide)).2.2.1⟩

/-- C12: alignment is preserved by the cursor advance: for every alignment unit
`a` dividing the header size 16 and every record whose `nameLen` is a multiple
of `a` with `16 + nameLen < 2^32`, `getEventStride` is a multiple of `a`, so a
record that starts at an `a`-aligned offset is followed by a record that starts
at an `a`-aligned offset. -/
theorem getEventStride_preserves_alignment (bo : ByteOrder) (pre rest : List Byte)
    (wd mask cookie len a : Nat) (ha : a ∣ sizeofInotifyEvent) (hlen : a ∣ len)
    (hfit : sizeofInotifyEvent + len < UINT32_MOD) :
    ∃ stride,
      getEventStride bo (pre ++ (headerBytes bo wd mask cookie len ++ rest)) pre.length =
        some stride ∧
      a ∣ stride ∧ (a ∣ pre.length → a ∣ pre.length + stride) := by
  refine ⟨sizeofInotifyEvent + len,
    getEventStride_header_of_fits bo pre rest wd mask cookie len hfit, ?_, ?_⟩
  · exact Nat.dvd_add ha hlen
  · intro hp
    exact Nat.dvd_add hp (Nat.dvd_add ha hlen)

/-- C12, witness: alignment unit 8, a record with `nameLen = 24` at offset 8. -/
theorem getEventStride_preserves_alignment_witness :
    8 ∣ sizeofInotifyEvent ∧ 8 ∣ 24 ∧ sizeofInotifyEvent + 24 < UINT32_MOD ∧
    ∃ stride,
      getEventStride .little
        (List.replicate 8 0 ++ (headerBytes .little 1 2 0 24 ++ List.replicate 24 0))
        (List.replicate 8 (0 : Byte)).length = some stride ∧
      8 ∣ stride ∧
      (8 ∣ (List.replicate 8 (0 : Byte)).length →
        8 ∣ (List.replicate 8 (0 : Byte)).length + stride) :=
  ⟨by decide, by decide, by decide,
    getEventStride_preserves_alignment .little (List.replicate 8 0) (List.replicate 24 0)
      1 2 0 24 8 (by decide) (by decide) (by decide)⟩

/-- C13: `getEventStride` computes in 32-bit unsigned arithmetic: for every
value `len` of the 32-bit field it returns `(16 + len) mod 2^32`, which is
`16 + len` exactly when `len <= 2^32 - 17`; for `len >= 2^32 - 16` it is
`len - (2^32 - 16)`, smaller than the header size 16, and 0 for
`len = 2^32 - 16`. -/
theorem getEventStride_mod_uint32 (bo : ByteOrder) (pre rest : List Byte)
    (wd mask cookie len : Nat) (hlen : len < UINT32_MOD) :
    getEventStride bo (pre ++ (headerBytes bo wd mask cookie len ++ rest)) pre.length =
      some ((sizeofInotifyEvent + len) % UINT32_MOD) ∧
    ((sizeofInotifyEvent + len) % UINT32_MOD = sizeofInotifyEvent + len ↔ len ≤ 4294967279) ∧
    (4294967280 ≤ len →
      (sizeofInotifyEvent + len) % UINT32_MOD = len - 4294967280 ∧
      (sizeofInotifyEvent + len) % UINT32_MOD < sizeofInotifyEvent) ∧
    (len = 4294967280 → (sizeofInotifyEvent + len) % UINT32_MOD = 0) := by
  refine ⟨?_, ?_, ?_, ?_⟩
  · rw [getEventStride_header, Nat.mod_eq_of_lt hlen]
  all_goals
    simp only [sizeofInotifyEvent, UINT32_MOD] at *
    omega

/-- C13, witness: `len = 2^32 - 1` gives the stride 15. -/
theorem getEventStride_mod_uint32_witness :
    4294967295 < UINT32_MOD ∧
    getEventStride .little ([] ++ (headerBytes .little 1 2 0 4294967295 ++ [])) 0 = some 15 :=
  ⟨by decide, (getEventStride_mod_uint32 .little [] [] 1 2 0 4294967295 (by decide)).1⟩

/-- C14: the two accessors agree on the record layout: for every record at
offset `p` with `len <= 2^32 - 17`, whatever its header fields and name bytes,
`getEventName` returns `p + 16`, and `getEventName(p) + len` is
`p + getEventStride(p)`, the end of the record: the `len` bytes from
`getEventName(p)` are the name window, and the bytes from `p + stride` on are
what follows the record (the next record). -/
theorem name_window_ends_at_stride (bo : ByteOrder) (pre rest : List Byte) (r : RawRecord)
    (hlen : r.window.length ≤ 4294967279) :
    getEventName pre.length = pre.length + sizeofInotifyEvent ∧
    ∃ stride,
      getEventStride bo (pre ++ (r.bytes bo ++ rest)) pre.length = some stride ∧
      getEventName pre.length + r.window.length = pre.length + stride ∧
      pre.length + stride = (pre ++ r.bytes bo).length ∧
      ((pre ++ (r.bytes bo ++ rest)).drop (getEventName pre.length)).take r.window.length =
        r.window ∧
      (pre ++ (r.bytes bo ++ rest)).drop (pre.length + stride) = rest := by
  have hfit : sizeofInotifyEvent + r.window.length < UINT32_MOD := by
    simp only [sizeofInotifyEvent, UINT32_MOD]; omega
  refine ⟨rfl, sizeofInotifyEvent + r.window.length, ?_, ?_, ?_, ?_, ?_⟩
  · simp only [RawRecord.bytes, List.append_assoc]
    exact getEventStride_header_of_fits bo pre _ r.wd r.mask r.cookie r.window.length hfit
  · simp only [getEventName, offsetofName, sizeofInotifyEvent]; omega
  · simp [length_recordBytes]
  · simp only [RawRecord.bytes, List.append_assoc, drop_header, List.take_left]
  · have h : pre.length + (sizeofInotifyEvent + r.window.length) = (pre ++ r.bytes bo).length := by
      simp [length_recordBytes]
    rw [h, ← List.append_assoc, List.drop_left]

/-- C14, witness: the record `"a.txt"` (`len = 16`) followed by a second
record: the name window ends at offset 32, where the second record starts. -/
theorem name_window_ends_at_stride_witness :
    aTxtRecord.window.length ≤ 4294967279 ∧
    getEventName ([] : List Byte).length = ([] : List Byte).length + sizeofInotifyEvent ∧
    ∃ stride,
      getEventStride .little ([] ++ (aTxtRecord.bytes .little ++ ignoredRecord.bytes .little))
        ([] : List Byte).length = some stride ∧
      getEventName ([] : List Byte).length + aTxtRecord.window.length =
        ([] : List Byte).length + stride ∧
      ([] : List Byte).length + stride = ([] ++ aTxtRecord.bytes .little).length ∧
      (([] ++ (aTxtRecord.bytes .little ++ ignoredRecord.bytes .little)).drop
        (getEventName ([] : List Byte).length)).take aTxtRecord.window.length =
        aTxtRecord.window ∧
      ([] ++ (aTxtRecord.bytes .little ++ ignoredRecord.bytes .little)).drop
        (([] : List Byte).length + stride) = ignoredRecord.bytes .little :=
  ⟨by decide,
    name_window_ends_at_stride .little [] (ignoredRecord.bytes .little) aTxtRecord (by decide)⟩

end Witness
